import Mathlib

/-!
# Verification of the TimeKeeping offset-logger core

Shallow embedding of `src/python/offsetlogger.py` over `ℚ` (floating-point
values are modelled as exact rationals; `numpy` reductions and fits are
modelled by their mathematical definitions).  Fallible numpy operations that
raise Python exceptions are modelled with `Except String`.
-/

deriving instance DecidableEq for Except

unseal Rat.add Rat.mul Rat.sub Rat.inv Rat.ofScientific

namespace TimeKeeping

/-- One NTP response, as used by the acquisition loop (fields read from
`ntplib` response objects at lines 185-199 of `offsetlogger.py`). -/
structure NTPResponse where
  orig_time : ℚ
  dest_time : ℚ
  tx_time : ℚ
  recv_time : ℚ
  offset : ℚ
  root_dispersion : ℚ
  deriving DecidableEq, Repr

/-- One row of the `sample_data` / `history` data frame: the seven columns
`local_time, pred_time, serv_time, offset, sig_offset, pred_offset,
sig_pred_offset` used throughout `offsetlogger.py`. -/
structure Record where
  local_time : ℚ
  pred_time : ℚ
  serv_time : ℚ
  offset : ℚ
  sig_offset : ℚ
  pred_offset : ℚ
  sig_pred_offset : ℚ
  deriving DecidableEq, Repr

/-- `np.mean` / pandas `.mean()` of a list (sum divided by length; only ever
used on nonempty lists in the paths the claims exercise). -/
def npMean (l : List ℚ) : ℚ := l.sum / l.length

/-- `weights_from_uncertainty` (offsetlogger.py lines 14-17):
`sigs = sig_data.copy(); sigs[sigs<=0] = sigs[sigs>0].min()/2; return 1/np.pow(sigs,2)`.
When no strictly positive sigma exists, `min()` of an empty selection raises
`ValueError`, modelled as `.error`.  The source works on a copy, so the
caller's data is never mutated; the embedding is pure. -/
def weights_from_uncertainty (sig_data : List ℚ) : Except String (List ℚ) :=
  match sig_data.filter (fun s => decide (0 < s)) with
  | [] => .error "zero-size array to reduction operation minimum which has no identity"
  | p :: ps =>
    let m := ps.foldl min p
    let sigs := sig_data.map (fun s => if s ≤ 0 then m / 2 else s)
    .ok (sigs.map (fun s => 1 / s ^ 2))

/-- `np.average(data, weights=w)`: weighted sum divided by the sum of
weights; Python raises when the weights sum to zero. -/
def np_average (data w : List ℚ) : Except String ℚ :=
  if w.sum = 0 then .error "Weights sum to zero, can't be normalized"
  else .ok ((List.zipWith (fun d wi => d * wi) data w).sum / w.sum)

/-- `np.sqrt` modelled by `Rat.sqrt` (exact on perfect squares of rationals;
no claim below depends on its value elsewhere — it only ever lands in the
`sig_*` fields of emitted records, which no claim reads back). -/
def npSqrt (q : ℚ) : ℚ := Rat.sqrt q

/-- `weighted_mean` (offsetlogger.py lines 19-24). -/
def weighted_mean (data sig_data : List ℚ) : Except String (ℚ × ℚ) :=
  match weights_from_uncertainty sig_data with
  | .error e => .error e
  | .ok weights =>
    match np_average data weights with
    | .error e => .error e
    | .ok average => .ok (average, npSqrt (1 / weights.sum))

/-- `np.polyval(p, x)`: Horner evaluation, coefficients highest power first. -/
def polyval (p : List ℚ) (x : ℚ) : ℚ := p.foldl (fun acc c => acc * x + c) 0

/-- Determinant of a square rational matrix (rows as lists) by Laplace
expansion along the first row; `fuel` is the matrix dimension (callers pass
`m.length`). -/
def detQ : ℕ → List (List ℚ) → ℚ
  | _, [] => 1
  | 0, _ :: _ => 0
  | fuel + 1, r :: rs =>
    (List.range r.length).foldl
      (fun acc j =>
        acc + (-1) ^ j * r.getD j 0 * detQ fuel (rs.map (fun row => row.eraseIdx j)))
      0

/-- Replace column `j` of the matrix by the vector `b`. -/
def replaceCol (m : List (List ℚ)) (b : List ℚ) (j : ℕ) : List (List ℚ) :=
  List.zipWith (fun row bi => row.set j bi) m b

/-- The mathematical content of `np.polyfit(x, y, degree, w=w)`: the
least-squares solution of `(w_i * x_i^(degree-j))_{ij} c = (w_i y_i)_i`,
coefficients highest power first, obtained from the normal equations by
Cramer's rule.  On a singular normal system `numpy`'s `lstsq` returns a
minimum-norm solution; none of the claims depends on that branch, which is
modelled as the zero polynomial. -/
def polyfitLS (x y w : List ℚ) (degree : ℕ) : List ℚ :=
  let p := degree + 1
  let sA : ℕ → ℚ := fun e => (List.zipWith (fun xi wi => wi ^ 2 * xi ^ e) x w).sum
  let sB : ℕ → ℚ := fun e =>
    (List.zipWith (fun xi (yw : ℚ × ℚ) => yw.2 ^ 2 * xi ^ e * yw.1) x (y.zip w)).sum
  let mm := (List.range p).map (fun j =>
    (List.range p).map (fun k => sA ((degree - j) + (degree - k))))
  let bb := (List.range p).map (fun j => sB (degree - j))
  let d := detQ p mm
  if d = 0 then List.replicate p 0
  else (List.range p).map (fun j => detQ p (replaceCol mm bb j) / d)

/-- `polyfit_with_uncertainty` (offsetlogger.py lines 26-52); column names
become accessor functions on `Record`.  With a `sig_column` the weights come
from `weights_from_uncertainty` (so the call raises when no usable sigma
exists); without one the fit is unweighted. -/
def polyfit_with_uncertainty (data : List Record) (xc yc : Record → ℚ)
    (sigc : Option (Record → ℚ)) (degree : ℕ) : Except String (List ℚ) :=
  let x := data.map xc
  let y := data.map yc
  match sigc with
  | some f =>
    match weights_from_uncertainty (data.map f) with
    | .error e => .error e
    | .ok w => .ok (polyfitLS x y w degree)
  | none => .ok (polyfitLS x y (List.replicate data.length 1) degree)

/-- Sorting used by the quantile computation (`np.nanquantile` sorts the
values; any correct sort of the values gives the same order statistics). -/
def sortQ (l : List ℚ) : List ℚ := List.insertionSort (· ≤ ·) l

/-- `np.nanquantile(l, q)` with the default linear interpolation: with
`h = q*(n-1)`, interpolate between the order statistics at `⌊h⌋` and
`⌊h⌋+1`. -/
def quantileLinear (q : ℚ) (l : List ℚ) : ℚ :=
  let s := sortQ l
  let h : ℚ := q * ((l.length : ℚ) - 1)
  let i : ℕ := (⌊h⌋).toNat
  let lo := s.getD i 0
  let hi := s.getD (i + 1) lo
  lo + (h - ⌊h⌋) * (hi - lo)

/-- The detrending step of `outlier_filter` (offsetlogger.py lines 69-79):
without a fit column the series itself, otherwise the series minus the
fitted weighted polynomial trend evaluated at the fit column. -/
def residuals (data : List Record) (filterc : Record → ℚ)
    (fitc : Option (Record → ℚ)) (sigc : Option (Record → ℚ))
    (degree : ℕ) : Except String (List ℚ) :=
  match fitc with
  | none => .ok (data.map filterc)
  | some xc =>
    match polyfit_with_uncertainty data xc filterc sigc degree with
    | .error e => .error e
    | .ok trend =>
      .ok (List.zipWith (fun fd xv => fd - polyval trend xv)
        (data.map filterc) (data.map xc))

/-- `outlier_filter` (offsetlogger.py lines 54-86): optionally detrend the
filter column against the fit column with a weighted polynomial fit, then
keep the values within `[Q1 - level*IQR, Q3 + level*IQR]` of the (possibly
detrended) values.  Returns the boolean inlier mask, aligned with the
input rows. -/
def outlier_filter (data : List Record) (filterc : Record → ℚ)
    (fitc : Option (Record → ℚ)) (sigc : Option (Record → ℚ))
    (level : ℚ) (degree : ℕ) : Except String (List Bool) :=
  match residuals data filterc fitc sigc degree with
  | .error e => .error e
  | .ok resid =>
    let q1 := quantileLinear (1 / 4) resid
    let q3 := quantileLinear (3 / 4) resid
    let iqr := q3 - q1
    let min_val := q1 - level * iqr
    let max_val := q3 + level * iqr
    .ok (resid.map (fun v => decide (min_val ≤ v) && decide (v ≤ max_val)))

/-- `count_outliers` (offsetlogger.py lines 88-104): the number of mask
entries that are `false`. -/
def count_outliers (data : List Record) (filterc : Record → ℚ)
    (fitc : Option (Record → ℚ)) (sigc : Option (Record → ℚ))
    (level : ℚ) (degree : ℕ) : Except String ℕ :=
  match outlier_filter data filterc fitc sigc level degree with
  | .error e => .error e
  | .ok mask => .ok (mask.countP (fun b => b = false))

/-- Keep the rows whose mask entry is `true` (`data[filter]`, the boolean
mask always being aligned with the rows). -/
def keepMask : List Record → List Bool → List Record
  | [], _ => []
  | _ :: _, [] => []
  | d :: ds, b :: bs => if b then d :: keepMask ds bs else keepMask ds bs

/-- `remove_outliers` (offsetlogger.py lines 106-123). -/
def remove_outliers (data : List Record) (filterc : Record → ℚ)
    (fitc : Option (Record → ℚ)) (sigc : Option (Record → ℚ))
    (level : ℚ) (degree : ℕ) : Except String (List Record) :=
  match outlier_filter data filterc fitc sigc level degree with
  | .error e => .error e
  | .ok mask => .ok (keepMask data mask)

/-- The in-window selection of `predict_time` (offsetlogger.py line 139):
rows with `local_time ∈ [t - window, t)`. -/
def windowSelect (local_time window : ℚ) (history : List Record) : List Record :=
  history.filter (fun r =>
    decide (r.local_time < local_time) && decide (local_time - window ≤ r.local_time))

/-- `predict_time` (offsetlogger.py lines 125-159). -/
def predict_time (local_time : ℚ) (history : List Record) (window level : ℚ)
    (degree : ℕ) : Except String ℚ :=
  let past_data := windowSelect local_time window history
  if past_data.length < 5 then
    if past_data.length = 0 then .ok local_time
    else .ok (local_time + npMean (past_data.map Record.offset))
  else
    match remove_outliers past_data Record.offset (some Record.local_time)
        (some Record.sig_offset) level degree with
    | .error e => .error e
    | .ok filtered_data =>
      if filtered_data.length < 5 then
        if filtered_data.length = 0 then .ok local_time
        else .ok (local_time + npMean (past_data.map Record.offset))
      else
        match polyfit_with_uncertainty filtered_data Record.local_time Record.offset
            (some Record.sig_offset) degree with
        | .error e => .error e
        | .ok trend => .ok (local_time + polyval trend local_time)

/-- The outlier-trimming `while`-loop of the acquisition cycle
(offsetlogger.py lines 217-222), with its fixed arguments
`('offset', 'local_time', 'sig_offset', level=0.5, degree=3)`.
`n0` is `len(offsets)`, the size of the *original* batch, fixed across
iterations.  `fuel` bounds the number of iterations; by
`trimLoop_fuel_sufficient` below, `data.length + 1` fuel already computes the
loop's fixpoint, so the fuel is not an approximation of the `while` loop. -/
def trimLoop : ℕ → ℕ → List Record → Except String (List Record)
  | 0, _, data => .ok data
  | fuel + 1, n0, data =>
    match count_outliers data Record.offset (some Record.local_time)
        (some Record.sig_offset) (1 / 2) 3 with
    | .error e => .error e
    | .ok c =>
      if (c : ℚ) > (n0 : ℚ) / 20 then
        if data.length < 5 then .ok data
        else
          match remove_outliers data Record.offset (some Record.local_time)
              (some Record.sig_offset) (1 / 2) 3 with
          | .error e => .error e
          | .ok d => trimLoop fuel n0 d
      else .ok data

/-- The `sample_data` frame built at offsetlogger.py lines 206-214. -/
def mkSampleData (responses : List NTPResponse) (pred_times : List ℚ) : List Record :=
  List.zipWith (fun (resp : NTPResponse) p =>
    { local_time := (resp.orig_time + resp.dest_time) / 2
      pred_time := p
      serv_time := (resp.tx_time + resp.recv_time) / 2
      offset := resp.offset
      sig_offset := resp.root_dispersion
      pred_offset := (resp.tx_time + resp.recv_time) / 2 - p
      sig_pred_offset := resp.root_dispersion }) responses pred_times

/-- One acquisition cycle after batch collection (offsetlogger.py lines
185-240): derive the per-sample columns, predict, build `sample_data`, run
the trim loop — whose reassigned `sample_data` the source never reads
afterwards, though an exception inside it still aborts the cycle — and
aggregate the *original* arrays into the emitted history record. -/
def runCycle (responses : List NTPResponse) (history : List Record) :
    Except String Record :=
  let local_times := responses.map (fun r => (r.orig_time + r.dest_time) / 2)
  match local_times.mapM (fun lt => predict_time lt history 3000 (3 / 2) 3) with
  | .error e => .error e
  | .ok pred_times =>
    let serv_times := responses.map (fun r => (r.tx_time + r.recv_time) / 2)
    let offsets := responses.map (fun r => r.offset)
    let sig_offsets := responses.map (fun r => r.root_dispersion)
    let pred_offsets := List.zipWith (fun s p => s - p) serv_times pred_times
    let sig_pred_offsets := sig_offsets
    let sample_data := mkSampleData responses pred_times
    match trimLoop (sample_data.length + 1) offsets.length sample_data with
    | .error e => .error e
    | .ok _trimmed =>
      match weighted_mean offsets sig_offsets with
      | .error e => .error e
      | .ok (offset, sig_offset) =>
        match weighted_mean pred_offsets sig_pred_offsets with
        | .error e => .error e
        | .ok (pred_offset, sig_pred_offset) =>
          .ok { local_time := npMean local_times
                pred_time := npMean pred_times
                serv_time := npMean serv_times
                offset := offset
                sig_offset := sig_offset
                pred_offset := pred_offset
                sig_pred_offset := sig_pred_offset }

/-! ## The history-line number formatting (offsetlogger.py line 242) -/

/-- Round to the nearest integer, ties to even — how a decimal mantissa is
rounded to a fixed number of fractional digits. -/
def roundHalfEven (q : ℚ) : ℤ :=
  let f := ⌊q⌋
  let r := q - f
  if r < 1 / 2 then f
  else if 1 / 2 < r then f + 1
  else if f % 2 = 0 then f else f + 1

/-- Base-10 logarithm of a natural number, by repeated division;
the fuel argument only drives the recursion (callers pass `n`). -/
def natLog10F : ℕ → ℕ → ℕ
  | 0, _ => 0
  | fuel + 1, n => if n < 10 then 0 else natLog10F fuel (n / 10) + 1

/-- `⌊log10 n⌋` for `n ≥ 1` (see `natLog10_bracket`). -/
def natLog10 (n : ℕ) : ℕ := natLog10F n n

/-- The integer part of `log10` of a positive rational: the unique `e` with
`10^e ≤ a < 10^(e+1)` (see `ilog10_correct`). -/
def ilog10 (a : ℚ) : ℤ :=
  let e0 : ℤ := (natLog10 a.num.toNat : ℤ) - (natLog10 a.den : ℤ)
  if a < (10 : ℚ) ^ e0 then e0 - 1 else e0

/-- The pieces of Python's scientific formatting: sign, mantissa digits
(`prec + 1` of them for a nonzero value), decimal exponent. -/
structure SciParts where
  neg : Bool
  mant : ℕ
  exp : ℤ
  deriving DecidableEq, Repr

/-- Python's `.4e`-style formatting (for `prec` fractional digits):
normalize the absolute value into `[1, 10)`, round the mantissa to `prec`
fractional digits (a carry `9.99995... -> 10.0000` bumps the exponent). -/
def pyFormatEParts (prec : ℕ) (x : ℚ) : SciParts :=
  if x = 0 then { neg := false, mant := 0, exp := 0 }
  else
    let a := |x|
    let e := ilog10 a
    let m0 := roundHalfEven (a / (10 : ℚ) ^ e * (10 : ℚ) ^ prec)
    if m0 = (10 : ℤ) ^ (prec + 1) then
      { neg := decide (x < 0), mant := 10 ^ prec, exp := e + 1 }
    else
      { neg := decide (x < 0), mant := m0.toNat, exp := e }

/-- Left-pad a digit list with zeros to width `k`. -/
def padDigits (l : List Char) (k : ℕ) : List Char :=
  List.replicate (k - l.length) '0' ++ l

/-- Render `SciParts` the way Python prints `d.dddd e±XX` (the exponent has
at least two digits). -/
def renderSci (prec : ℕ) (p : SciParts) : String :=
  let ds := padDigits (Nat.toDigits 10 p.mant) (prec + 1)
  let mant : List Char :=
    match ds with
    | [] => []
    | c :: rest => c :: '.' :: rest
  let es := padDigits (Nat.toDigits 10 p.exp.natAbs) 2
  String.mk ((if p.neg then ['-'] else []) ++ mant ++ ['e'] ++
    (if p.exp < 0 then ['-'] else ['+']) ++ es)

/-- The embedding of the format specifier used for the offset-family fields
of the emitted history line. -/
def pyFormatE (prec : ℕ) (x : ℚ) : String := renderSci prec (pyFormatEParts prec x)

/-- Number of digits of a natural number in base 10. -/
def digitsLen (n : ℕ) : ℕ := natLog10 n + 1

/-- The number of significant digits in the rendered mantissa: all of the
mantissa's digits are significant since its leading digit is nonzero. -/
def sigDigitCount (prec : ℕ) (x : ℚ) : ℕ := digitsLen (pyFormatEParts prec x).mant

/-- The four offset-family fields of the history line
`f"... {offset:.4e}, {sig_offset:.4e}, {pred_offset:.4e}, {sig_pred_offset:.4e}"`
(offsetlogger.py line 242).  The three time fields of the line are rendered
by Python's `str(float)` — the shortest round-trip representation of a
binary double — which has no counterpart on exact rationals; no claim reads
them back, and the claim's refutable content concerns these four fields. -/
def historyLineOffsetFields (r : Record) : List String :=
  [pyFormatE 4 r.offset, pyFormatE 4 r.sig_offset,
   pyFormatE 4 r.pred_offset, pyFormatE 4 r.sig_pred_offset]

/-! ## Concrete test data -/

/-- A history/sample row with only the columns relevant to trimming and
prediction populated (`local_time`, `offset`, `sig_offset`). -/
def sampleRow (x y s : ℚ) : Record :=
  { local_time := x, pred_time := 0, serv_time := 0, offset := y,
    sig_offset := s, pred_offset := 0, sig_pred_offset := 0 }

/-- Five samples at `local_time = 0..4` with offsets `(0,0,1,0,0)` and unit
sigmas.  The cubic least-squares residuals are `(3,-12,18,-12,3)/35`; at
`level = 0.5` exactly the middle sample is flagged as an outlier. -/
def c2Data : List Record :=
  [sampleRow 0 0 1, sampleRow 1 0 1, sampleRow 2 1 1, sampleRow 3 0 1, sampleRow 4 0 1]

/-- A batch of five NTP responses realizing `c2Data` as the cycle's
`sample_data` frame: `orig = dest = tx = recv = i`, offsets `(0,0,1,0,0)`,
unit root dispersion. -/
def c1Batch : List NTPResponse :=
  [⟨0, 0, 0, 0, 0, 1⟩, ⟨1, 1, 1, 1, 0, 1⟩, ⟨2, 2, 2, 2, 1, 1⟩,
   ⟨3, 3, 3, 3, 0, 1⟩, ⟨4, 4, 4, 4, 0, 1⟩]

/-- Twenty samples at `local_time = 0..19`: offset spikes of `1000` at
`x = 5` and `x = 14`, a mild bump of `1` at `x = 9`, zero elsewhere, unit
sigmas.  The first trim pass flags exactly the two spikes, the second pass
flags exactly the bump. -/
def c10Data : List Record :=
  (List.range 20).zipWith (fun i y => sampleRow i y 1)
    [0, 0, 0, 0, 0, 1000, 0, 0, 0, 1, 0, 0, 0, 0, 1000, 0, 0, 0, 0, 0]

/-! ## Helper lemmas -/

theorem foldl_min_mem {α : Type} [LinearOrder α] :
    ∀ (ps : List α) (p : α), ps.foldl min p ∈ p :: ps
  | [], _ => by simp
  | a :: as, p => by
    have h := foldl_min_mem as (min p a)
    rw [List.foldl_cons]
    rcases List.mem_cons.mp h with h1 | h1
    · rcases min_choice p a with h2 | h2
      · rw [h1, h2]; exact List.mem_cons_self _ _
      · rw [h1, h2]; exact List.mem_cons_of_mem _ (List.mem_cons_self _ _)
    · exact List.mem_cons_of_mem _ (List.mem_cons_of_mem _ h1)

theorem foldl_min_le {α : Type} [LinearOrder α] :
    ∀ (ps : List α) (p : α), ∀ x ∈ p :: ps, ps.foldl min p ≤ x
  | [], p, x, hx => by
    simp only [List.mem_singleton] at hx
    subst hx; simp
  | a :: as, p, x, hx => by
    rw [List.foldl_cons]
    rcases List.mem_cons.mp hx with h1 | h1
    · subst h1
      exact le_trans (foldl_min_le as (min x a) _ (List.mem_cons_self _ _)) (min_le_left _ _)
    · rcases List.mem_cons.mp h1 with h2 | h2
      · subst h2
        exact le_trans (foldl_min_le as (min p x) _ (List.mem_cons_self _ _)) (min_le_right _ _)
      · exact foldl_min_le as (min p a) x (List.mem_cons_of_mem _ h2)

theorem residuals_length {data : List Record} {filterc fitc sigc degree resid}
    (h : residuals data filterc fitc sigc degree = .ok resid) :
    resid.length = data.length := by
  cases fitc with
  | none =>
    simp only [residuals] at h
    rw [← Except.ok.inj h, List.length_map]
  | some xc =>
    simp only [residuals] at h
    cases hP : polyfit_with_uncertainty data xc filterc sigc degree with
    | error e => rw [hP] at h; exact absurd h (by simp)
    | ok trend =>
      rw [hP] at h
      rw [← Except.ok.inj h, List.length_zipWith, List.length_map, List.length_map,
        min_self]

theorem outlier_filter_mask {data : List Record} {filterc fitc sigc level degree mask}
    (h : outlier_filter data filterc fitc sigc level degree = .ok mask) :
    ∃ resid, residuals data filterc fitc sigc degree = .ok resid ∧
      mask.length = data.length ∧
      mask = resid.map (fun v =>
        decide (quantileLinear (1 / 4) resid -
            level * (quantileLinear (3 / 4) resid - quantileLinear (1 / 4) resid) ≤ v) &&
        decide (v ≤ quantileLinear (3 / 4) resid +
            level * (quantileLinear (3 / 4) resid - quantileLinear (1 / 4) resid))) := by
  cases hR : residuals data filterc fitc sigc degree with
  | error e => simp only [outlier_filter, hR] at h; simp at h
  | ok resid =>
    refine ⟨resid, rfl, ?_, ?_⟩
    · simp only [outlier_filter, hR] at h
      rw [← Except.ok.inj h, List.length_map]
      exact residuals_length hR
    · simp only [outlier_filter, hR] at h
      exact (Except.ok.inj h).symm

theorem keepMask_length_add :
    ∀ (data : List Record) (mask : List Bool), data.length = mask.length →
      (keepMask data mask).length + mask.countP (fun b => b = false) = data.length
  | [], [], _ => by simp [keepMask]
  | [], _ :: _, h => by simp at h
  | _ :: _, [], h => by simp at h
  | d :: ds, b :: bs, h => by
    have hlen : ds.length = bs.length := by simpa using h
    have ih := keepMask_length_add ds bs hlen
    cases b with
    | true => simp [keepMask, List.countP_cons] at ih ⊢; omega
    | false => simp [keepMask, List.countP_cons] at ih ⊢; omega

/-- When one trim iteration both counts `c` outliers and removes them, the
survivors and the outliers partition the data: each iteration that removes
a positive count strictly shrinks the set. -/
theorem count_remove_split {data : List Record} {filterc fitc sigc level degree c d}
    (hM : count_outliers data filterc fitc sigc level degree = .ok c)
    (hR : remove_outliers data filterc fitc sigc level degree = .ok d) :
    d.length + c = data.length := by
  cases hF : outlier_filter data filterc fitc sigc level degree with
  | error e =>
    simp only [count_outliers, hF] at hM
    simp at hM
  | ok mask =>
    simp only [count_outliers, hF] at hM
    simp only [remove_outliers, hF] at hR
    obtain ⟨resid, _, hlen, _⟩ := outlier_filter_mask hF
    rw [← Except.ok.inj hM, ← Except.ok.inj hR]
    exact keepMask_length_add data mask hlen.symm

theorem trim_fuel_aux :
    ∀ (L : ℕ) (data : List Record), data.length ≤ L → ∀ (n0 fuel : ℕ),
      data.length + 1 ≤ fuel →
      trimLoop fuel n0 data = trimLoop (data.length + 1) n0 data := by
  intro L
  induction L with
  | zero =>
    intro data hL n0 fuel hf
    obtain ⟨f, rfl⟩ : ∃ f, fuel = f + 1 := ⟨fuel - 1, by omega⟩
    have h5 : data.length < 5 := by omega
    cases hM : count_outliers data Record.offset (some Record.local_time)
        (some Record.sig_offset) (1 / 2) 3 with
    | error e => simp only [trimLoop, hM]
    | ok c =>
      simp only [trimLoop, hM]
      by_cases hc : (c : ℚ) > (n0 : ℚ) / 20
      · simp only [if_pos hc, if_pos h5]
      · simp only [if_neg hc]
  | succ L ih =>
    intro data hL n0 fuel hf
    obtain ⟨f, rfl⟩ : ∃ f, fuel = f + 1 := ⟨fuel - 1, by omega⟩
    cases hM : count_outliers data Record.offset (some Record.local_time)
        (some Record.sig_offset) (1 / 2) 3 with
    | error e => simp only [trimLoop, hM]
    | ok c =>
      simp only [trimLoop, hM]
      by_cases hc : (c : ℚ) > (n0 : ℚ) / 20
      · simp only [if_pos hc]
        by_cases h5 : data.length < 5
        · simp only [if_pos h5]
        · simp only [if_neg h5]
          cases hR : remove_outliers data Record.offset (some Record.local_time)
              (some Record.sig_offset) (1 / 2) 3 with
          | error e => rfl
          | ok d =>
            have hc1 : 1 ≤ c := by
              rcases Nat.eq_zero_or_pos c with hc0 | hc0
              · subst hc0
                simp only [Nat.cast_zero] at hc
                exact absurd hc (not_lt.mpr (by positivity))
              · exact hc0
            have hsplit := count_remove_split hM hR
            have hdlt : d.length < data.length := by omega
            have h1 := ih d (by omega) n0 f (by omega)
            have h2 := ih d (by omega) n0 data.length (by omega)
            show trimLoop f n0 d = trimLoop data.length n0 d
            rw [h1, h2]
      · simp only [if_neg hc]

theorem getD_of_lt {α : Type} (l : List α) (i : ℕ) (d : α) (h : i < l.length) :
    l.getD i d = l.get ⟨i, h⟩ := by
  simp [List.getD_eq_getElem?_getD, List.getElem?_eq_getElem h]

theorem sortQ_length (l : List ℚ) : (sortQ l).length = l.length :=
  (List.perm_insertionSort _ l).length_eq

theorem sortQ_sorted (l : List ℚ) : (sortQ l).Sorted (· ≤ ·) :=
  List.sorted_insertionSort _ l

/-- The linearly interpolated quantile lies between the order statistics at
`⌊h⌋` and `⌊h⌋ + 1` (with `h = q*(n-1)`). -/
theorem quantileLinear_bracket (q : ℚ) (l : List ℚ) (hl : l ≠ [])
    (hq0 : 0 ≤ q) (hq1 : q ≤ 1) :
    (sortQ l).getD (⌊q * ((l.length : ℚ) - 1)⌋).toNat 0 ≤ quantileLinear q l ∧
      quantileLinear q l ≤
        (sortQ l).getD ((⌊q * ((l.length : ℚ) - 1)⌋).toNat + 1)
          ((sortQ l).getD (⌊q * ((l.length : ℚ) - 1)⌋).toNat 0) := by
  have hn1 : 1 ≤ l.length := List.length_pos.mpr hl
  have hn1q : (1 : ℚ) ≤ (l.length : ℚ) := by exact_mod_cast hn1
  have hgeq : (0 : ℚ) ≤ q * ((l.length : ℚ) - 1) :=
    mul_nonneg hq0 (by linarith)
  have hquant : quantileLinear q l =
      (sortQ l).getD (⌊q * ((l.length : ℚ) - 1)⌋).toNat 0 +
        (q * ((l.length : ℚ) - 1) - ⌊q * ((l.length : ℚ) - 1)⌋) *
          ((sortQ l).getD ((⌊q * ((l.length : ℚ) - 1)⌋).toNat + 1)
              ((sortQ l).getD (⌊q * ((l.length : ℚ) - 1)⌋).toNat 0) -
            (sortQ l).getD (⌊q * ((l.length : ℚ) - 1)⌋).toNat 0) := rfl
  have hf0 : 0 ≤ q * ((l.length : ℚ) - 1) - ⌊q * ((l.length : ℚ) - 1)⌋ :=
    sub_nonneg.mpr (Int.floor_le _)
  have hf1 : q * ((l.length : ℚ) - 1) - ⌊q * ((l.length : ℚ) - 1)⌋ ≤ 1 := by
    have := Int.lt_floor_add_one (q * ((l.length : ℚ) - 1))
    linarith
  have hilt : (⌊q * ((l.length : ℚ) - 1)⌋).toNat < (sortQ l).length := by
    have h1 : q * ((l.length : ℚ) - 1) ≤ (l.length : ℚ) - 1 := by nlinarith
    have h2 : ⌊q * ((l.length : ℚ) - 1)⌋ ≤ ⌊(l.length : ℚ) - 1⌋ := Int.floor_mono h1
    have h3 : ⌊(l.length : ℚ) - 1⌋ = (l.length : ℤ) - 1 := by
      rw [show ((l.length : ℚ) - 1) = (((l.length : ℤ) - 1 : ℤ) : ℚ) by push_cast; ring]
      exact Int.floor_intCast _
    rw [sortQ_length]
    omega
  have hlohi : (sortQ l).getD (⌊q * ((l.length : ℚ) - 1)⌋).toNat 0 ≤
      (sortQ l).getD ((⌊q * ((l.length : ℚ) - 1)⌋).toNat + 1)
        ((sortQ l).getD (⌊q * ((l.length : ℚ) - 1)⌋).toNat 0) := by
    by_cases hcase : (⌊q * ((l.length : ℚ) - 1)⌋).toNat + 1 < (sortQ l).length
    · rw [getD_of_lt _ _ _ hilt, getD_of_lt _ _ _ hcase]
      exact (sortQ_sorted l).rel_get_of_le (Fin.mk_le_mk.mpr (by omega))
    · have hge : (sortQ l).length ≤ (⌊q * ((l.length : ℚ) - 1)⌋).toNat + 1 := by omega
      rw [List.getD_eq_default _ _ hge]
  constructor
  · rw [hquant]
    exact le_add_of_nonneg_right (mul_nonneg hf0 (sub_nonneg.mpr hlohi))
  · rw [hquant]
    nlinarith [mul_nonneg (sub_nonneg.mpr hf1)
      (sub_nonneg.mpr hlohi)]

/-- For any series of at least 3 values and any nonnegative IQR multiplier,
some value lies inside the fence `[Q1 - level*IQR, Q3 + level*IQR]` — so an
IQR pass never flags every point. -/
theorem exists_mem_quantile_fence (l : List ℚ) (hn : 3 ≤ l.length)
    (level : ℚ) (hlev : 0 ≤ level) :
    ∃ v ∈ l,
      quantileLinear (1 / 4) l -
          level * (quantileLinear (3 / 4) l - quantileLinear (1 / 4) l) ≤ v ∧
        v ≤ quantileLinear (3 / 4) l +
          level * (quantileLinear (3 / 4) l - quantileLinear (1 / 4) l) := by
  have hl : l ≠ [] := by intro h; subst h; simp at hn
  have hn1q : (3 : ℚ) ≤ (l.length : ℚ) := by exact_mod_cast hn
  have hb1 := quantileLinear_bracket (1 / 4) l hl (by norm_num) (by norm_num)
  have hb3 := quantileLinear_bracket (3 / 4) l hl (by norm_num) (by norm_num)
  have hfl0 : (0 : ℚ) ≤ (1 / 4 : ℚ) * ((l.length : ℚ) - 1) := by nlinarith
  have hi1c : (((⌊(1 / 4 : ℚ) * ((l.length : ℚ) - 1)⌋).toNat : ℚ)) =
      ((⌊(1 / 4 : ℚ) * ((l.length : ℚ) - 1)⌋ : ℤ) : ℚ) := by
    exact_mod_cast congrArg (fun z : ℤ => (z : ℚ))
      (Int.toNat_of_nonneg (Int.floor_nonneg.mpr hfl0))
  have hi1q : (((⌊(1 / 4 : ℚ) * ((l.length : ℚ) - 1)⌋).toNat : ℚ)) ≤
      (1 / 4 : ℚ) * ((l.length : ℚ) - 1) := by
    rw [hi1c]; exact Int.floor_le _
  have hkeyq : (((⌊(1 / 4 : ℚ) * ((l.length : ℚ) - 1)⌋).toNat : ℚ)) + 1 ≤
      (3 / 4 : ℚ) * ((l.length : ℚ) - 1) := by nlinarith
  have hkeyz : ((⌊(1 / 4 : ℚ) * ((l.length : ℚ) - 1)⌋).toNat : ℤ) + 1 ≤
      ⌊(3 / 4 : ℚ) * ((l.length : ℚ) - 1)⌋ := by
    rw [Int.le_floor]; push_cast; exact_mod_cast hkeyq
  have hkey : (⌊(1 / 4 : ℚ) * ((l.length : ℚ) - 1)⌋).toNat + 1 ≤
      (⌊(3 / 4 : ℚ) * ((l.length : ℚ) - 1)⌋).toNat := by
    omega
  have hi3lt : (⌊(3 / 4 : ℚ) * ((l.length : ℚ) - 1)⌋).toNat < (sortQ l).length := by
    have h1 : (3 / 4 : ℚ) * ((l.length : ℚ) - 1) ≤ (l.length : ℚ) - 1 := by nlinarith
    have h2 := Int.floor_mono h1
    have h3 : ⌊(l.length : ℚ) - 1⌋ = (l.length : ℤ) - 1 := by
      rw [show ((l.length : ℚ) - 1) = (((l.length : ℤ) - 1 : ℤ) : ℚ) by push_cast; ring]
      exact Int.floor_intCast _
    rw [sortQ_length]
    omega
  have hi1lt : (⌊(1 / 4 : ℚ) * ((l.length : ℚ) - 1)⌋).toNat + 1 < (sortQ l).length := by
    omega
  refine ⟨(sortQ l).get ⟨(⌊(1 / 4 : ℚ) * ((l.length : ℚ) - 1)⌋).toNat + 1, hi1lt⟩,
    (List.perm_insertionSort _ l).subset (List.get_mem _ _ _), ?_, ?_⟩
  · have h1 : quantileLinear (1 / 4) l ≤
        (sortQ l).get ⟨(⌊(1 / 4 : ℚ) * ((l.length : ℚ) - 1)⌋).toNat + 1, hi1lt⟩ := by
      have := hb1.2
      rwa [getD_of_lt _ _ _ hi1lt] at this
    have h2 : ((sortQ l).get ⟨(⌊(1 / 4 : ℚ) * ((l.length : ℚ) - 1)⌋).toNat + 1, hi1lt⟩ : ℚ) ≤
        (sortQ l).get ⟨(⌊(3 / 4 : ℚ) * ((l.length : ℚ) - 1)⌋).toNat, hi3lt⟩ :=
      (sortQ_sorted l).rel_get_of_le (Fin.mk_le_mk.mpr hkey)
    have h3 : ((sortQ l).get ⟨(⌊(3 / 4 : ℚ) * ((l.length : ℚ) - 1)⌋).toNat, hi3lt⟩ : ℚ) ≤
        quantileLinear (3 / 4) l := by
      have := hb3.1
      rwa [getD_of_lt _ _ _ hi3lt] at this
    nlinarith [mul_nonneg hlev (by linarith :
      (0 : ℚ) ≤ quantileLinear (3 / 4) l - quantileLinear (1 / 4) l)]
  · have h1 : quantileLinear (1 / 4) l ≤
        (sortQ l).get ⟨(⌊(1 / 4 : ℚ) * ((l.length : ℚ) - 1)⌋).toNat + 1, hi1lt⟩ := by
      have := hb1.2
      rwa [getD_of_lt _ _ _ hi1lt] at this
    have h2 : ((sortQ l).get ⟨(⌊(1 / 4 : ℚ) * ((l.length : ℚ) - 1)⌋).toNat + 1, hi1lt⟩ : ℚ) ≤
        (sortQ l).get ⟨(⌊(3 / 4 : ℚ) * ((l.length : ℚ) - 1)⌋).toNat, hi3lt⟩ :=
      (sortQ_sorted l).rel_get_of_le (Fin.mk_le_mk.mpr hkey)
    have h3 : ((sortQ l).get ⟨(⌊(3 / 4 : ℚ) * ((l.length : ℚ) - 1)⌋).toNat, hi3lt⟩ : ℚ) ≤
        quantileLinear (3 / 4) l := by
      have := hb3.1
      rwa [getD_of_lt _ _ _ hi3lt] at this
    nlinarith [mul_nonneg hlev (by linarith :
      (0 : ℚ) ≤ quantileLinear (3 / 4) l - quantileLinear (1 / 4) l)]

theorem keepMask_ne_nil :
    ∀ (data : List Record) (mask : List Bool), data.length = mask.length →
      true ∈ mask → keepMask data mask ≠ []
  | [], [], _, hm => by simp at hm
  | [], _ :: _, h, _ => by simp at h
  | _ :: _, [], h, _ => by simp at h
  | d :: ds, b :: bs, h, hm => by
    cases b with
    | true => simp [keepMask]
    | false =>
      have hm2 : true ∈ bs := by
        rcases List.mem_cons.mp hm with h1 | h1
        · exact absurd h1 (by simp)
        · exact h1
      have hlen : ds.length = bs.length := by simpa using h
      simpa [keepMask] using keepMask_ne_nil ds bs hlen hm2

/-- With at least 3 rows and a nonnegative `level`, a successful
`remove_outliers` pass always keeps at least one row: the IQR fence always
contains some residual. -/
theorem remove_outliers_ne_nil {data : List Record} {filterc : Record → ℚ}
    {xc sigc : Record → ℚ} {level : ℚ} {degree : ℕ} {res : List Record}
    (hlev : 0 ≤ level) (hn : 3 ≤ data.length)
    (h : remove_outliers data filterc (some xc) (some sigc) level degree = .ok res) :
    res ≠ [] := by
  cases hF : outlier_filter data filterc (some xc) (some sigc) level degree with
  | error e => simp only [remove_outliers, hF] at h; simp at h
  | ok mask =>
    simp only [remove_outliers, hF] at h
    obtain ⟨resid, hresid, hmlen, hmask⟩ := outlier_filter_mask hF
    have hrl : resid.length = data.length := residuals_length hresid
    obtain ⟨v, hv, hv1, hv2⟩ :=
      exists_mem_quantile_fence resid (by omega) level hlev
    have htrue : true ∈ mask := by
      rw [hmask]
      refine List.mem_map.mpr ⟨v, hv, ?_⟩
      simp only [Bool.and_eq_true, decide_eq_true_eq]
      exact ⟨hv1, hv2⟩
    rw [← Except.ok.inj h]
    exact keepMask_ne_nil data mask hmlen.symm htrue

/-! ## Claim theorems -/

/-- **C1** (code bug): in the acquisition cycle the aggregates are *not*
computed over the post-trim surviving samples — the trim loop's result is
discarded (`sample_data` is never read after line 222) and lines 224-228
aggregate the original arrays.  On `c1Batch` (with empty history) the
emitted `offset` is the weighted mean `1/5` of all five raw offsets, while
the surviving post-trim set has offsets `[0,0,0,0]` with weighted mean `0`. -/
theorem c1_aggregates_ignore_trim :
    (runCycle c1Batch []).map Record.offset = .ok (1 / 5) ∧
    c1Batch.map (fun r => predict_time ((r.orig_time + r.dest_time) / 2) [] 3000 (3 / 2) 3) =
      [.ok 0, .ok 1, .ok 2, .ok 3, .ok 4] ∧
    ((trimLoop (5 + 1) 5 (mkSampleData c1Batch [0, 1, 2, 3, 4])).bind
      (fun l => weighted_mean (l.map Record.offset) (l.map Record.sig_offset))).map
        Prod.fst = .ok 0 ∧
    (1 / 5 : ℚ) ≠ 0 :=
  ⟨by decide, by decide, by decide, by decide⟩

/-- **C2** (counterexample): an input of exactly 5 points can leave only 4
surviving points — the floor check precedes the removal, so a removal from
exactly 5 points may land below the floor. -/
theorem c2_trim_below_floor_cex :
    c2Data.length = 5 ∧
    (trimLoop (c2Data.length + 1) c2Data.length c2Data).map List.length = .ok 4 :=
  ⟨by decide, by decide⟩

/-- **C2** (amended): the floor check happens *before* each removal: once
the surviving count is below 5, the loop performs no further trimming and
returns the data unchanged (a single removal from ≥ 5 points may still land
below 5, as the counterexample shows). -/
theorem c2_floor_check_precedes_removal (fuel n0 : ℕ) (data res : List Record)
    (hlen : data.length < 5) (h : trimLoop fuel n0 data = .ok res) : res = data := by
  cases fuel with
  | zero =>
    simp only [trimLoop] at h
    exact (Except.ok.inj h).symm
  | succ f =>
    cases hM : count_outliers data Record.offset (some Record.local_time)
        (some Record.sig_offset) (1 / 2) 3 with
    | error e => simp only [trimLoop, hM] at h; exact absurd h (by simp)
    | ok c =>
      simp only [trimLoop, hM] at h
      by_cases hc : (c : ℚ) > (n0 : ℚ) / 20
      · rw [if_pos hc, if_pos hlen] at h
        exact (Except.ok.inj h).symm
      · rw [if_neg hc] at h
        exact (Except.ok.inj h).symm

/-- Witness for `c2_floor_check_precedes_removal`: on a 4-point dataset the
loop is the identity. -/
theorem c2_floor_check_precedes_removal_witness :
    ([sampleRow 0 0 1, sampleRow 1 0 1, sampleRow 2 0 1, sampleRow 3 0 1] : List Record).length < 5 ∧
    trimLoop 9 7 [sampleRow 0 0 1, sampleRow 1 0 1, sampleRow 2 0 1, sampleRow 3 0 1] =
      .ok [sampleRow 0 0 1, sampleRow 1 0 1, sampleRow 2 0 1, sampleRow 3 0 1] ∧
    ([sampleRow 0 0 1, sampleRow 1 0 1, sampleRow 2 0 1, sampleRow 3 0 1] : List Record) =
      [sampleRow 0 0 1, sampleRow 1 0 1, sampleRow 2 0 1, sampleRow 3 0 1] :=
  ⟨by decide, by decide,
    c2_floor_check_precedes_removal 9 7 _ _ (by decide) (by decide)⟩

/-- **C3** (counterexample): a cycle with an empty batch is *fatal*: the
trim-loop condition calls `weights_from_uncertainty` on an empty array,
whose `min()` of an empty selection raises an uncaught `ValueError`, so the
cycle neither writes a record nor surfaces a log-and-skip condition. -/
theorem c3_empty_batch_fatal_cex :
    runCycle [] [] =
      .error "zero-size array to reduction operation minimum which has no identity" := by
  decide

/-- **C3** (amended): for *every* history, an empty batch makes the cycle
abort with the uncaught error from the uncertainty-weighting step; no
`HistoryRecord` is produced. -/
theorem c3_empty_batch_error (history : List Record) :
    runCycle [] history =
      .error "zero-size array to reduction operation minimum which has no identity" := rfl

/-- **C6** (counterexample): with every sigma non-positive, `weighted_mean`
does not fall back to uniform weights — it fails with the propagated error
from `weights_from_uncertainty` (an uncaught `ValueError` in the source). -/
theorem c6_no_uniform_fallback_cex :
    weighted_mean [1, 2] [0, -1] =
      .error "zero-size array to reduction operation minimum which has no identity" := by
  decide

/-- **C6** (amended): whenever no strictly-positive sigma exists, the error
raised inside `weights_from_uncertainty` propagates out of `weighted_mean`
uncaught; no caller implements a uniform-weight fallback. -/
theorem c6_all_nonpositive_sigma_error (data sig_data : List ℚ)
    (h : ∀ s ∈ sig_data, s ≤ 0) :
    weighted_mean data sig_data =
      .error "zero-size array to reduction operation minimum which has no identity" := by
  have hf : sig_data.filter (fun s => decide (0 < s)) = [] :=
    List.filter_eq_nil_iff.mpr (fun a ha => by simpa using not_lt.mpr (h a ha))
  simp only [weighted_mean, weights_from_uncertainty, hf]

/-- Witness for `c6_all_nonpositive_sigma_error`. -/
theorem c6_all_nonpositive_sigma_error_witness :
    (∀ s ∈ ([-2, 0] : List ℚ), s ≤ 0) ∧
    weighted_mean [3] [-2, 0] =
      .error "zero-size array to reduction operation minimum which has no identity" :=
  ⟨by decide, c6_all_nonpositive_sigma_error [3] [-2, 0] (by decide)⟩

/-- **C7** (confirmed): with at least one strictly-positive sigma (stated
via the filtered positives being `p :: ps`), the weights are
`1/sigma^2` after every non-positive sigma is replaced by half the minimum
strictly-positive sigma; the minimum is characterized by the first
conjunct.  The source works on a copy (`sigs = sig_data.copy()`), so the
caller's list is unchanged — the embedding is a pure function of its
argument. -/
theorem c7_weights_replace_nonpositive (sig_data : List ℚ) (p : ℚ) (ps : List ℚ)
    (hf : sig_data.filter (fun s => decide (0 < s)) = p :: ps) :
    (0 < ps.foldl min p ∧ ps.foldl min p ∈ sig_data ∧
      ∀ s ∈ sig_data, 0 < s → ps.foldl min p ≤ s) ∧
    weights_from_uncertainty sig_data =
      .ok (sig_data.map (fun s => 1 / (if s ≤ 0 then ps.foldl min p / 2 else s) ^ 2)) := by
  have hmem : ps.foldl min p ∈ sig_data.filter (fun s => decide (0 < s)) := by
    rw [hf]; exact foldl_min_mem ps p
  have hmem2 := List.mem_filter.mp hmem
  refine ⟨⟨by simpa using hmem2.2, hmem2.1, ?_⟩, ?_⟩
  · intro s hs hpos
    have : s ∈ sig_data.filter (fun s => decide (0 < s)) :=
      List.mem_filter.mpr ⟨hs, by simpa using hpos⟩
    rw [hf] at this
    exact foldl_min_le ps p s this
  · simp only [weights_from_uncertainty, hf, List.map_map]
    rfl

/-- Witness for `c7_weights_replace_nonpositive`: the spec's worked example
`sigma = [0, -1, 2, 4] ↦ [1, 1, 0.25, 0.0625]`. -/
theorem c7_weights_replace_nonpositive_witness :
    weights_from_uncertainty [0, -1, 2, 4] = .ok [1, 1, 1 / 4, 1 / 16] :=
  (c7_weights_replace_nonpositive [0, -1, 2, 4] 2 [4] (by decide)).2.trans (by decide)

set_option maxRecDepth 100000 in
/-- **C10** (confirmed): the trim loop's stopping test compares the current
flagged-outlier count against `1/20` of the *original* batch size (the
`n0` argument, `len(offsets)` in the source), which stays fixed across
iterations.  Consequence exhibited on `c10Data` (20 points): the loop stops
with 18 survivors of which 1 is still flagged — `1 ≤ 20/20` stops the loop
even though `1 > 18/20`, i.e. outliers still exceed 1/20 of the survivors. -/
theorem c10_threshold_uses_original_size :
    (trimLoop (c10Data.length + 1) c10Data.length c10Data).map List.length = .ok 18 ∧
    (trimLoop (c10Data.length + 1) c10Data.length c10Data).bind
      (fun l => count_outliers l Record.offset (some Record.local_time)
        (some Record.sig_offset) (1 / 2) 3) = .ok 1 ∧
    ¬((1 : ℚ) > (20 : ℚ) / 20) ∧ (1 : ℚ) > (18 : ℚ) / 20 :=
  ⟨by decide, by decide, by decide, by decide⟩

/-- **C8** (confirmed): the trim loop terminates, with the number of
iterations bounded by the initial sample count: any fuel beyond
`data.length + 1` computes the same result as `data.length + 1` (so the
unbounded `while` loop is the `data.length + 1`-fuel computation).  The
bound holds because every iteration that continues removes at least one
point — the loop only recurses when the flagged count `c` satisfies
`c > n0/20 ≥ 0`, and the survivors and the `c` removed points partition the
current set (`count_remove_split`). -/
theorem c8_trim_loop_terminates (n0 : ℕ) (data : List Record) (fuel : ℕ)
    (hf : data.length + 1 ≤ fuel) :
    trimLoop fuel n0 data = trimLoop (data.length + 1) n0 data :=
  trim_fuel_aux data.length data le_rfl n0 fuel hf

/-- Witness for `c8_trim_loop_terminates`: on the 5-point dataset, fuel 50
and fuel 6 agree. -/
theorem c8_trim_loop_terminates_witness :
    trimLoop 50 5 c2Data = trimLoop (c2Data.length + 1) 5 c2Data :=
  c8_trim_loop_terminates 5 c2Data 50 (by decide)

/-- **C4** (confirmed): `predict_time` selects the history records with
`local_time ∈ [t - window, t)`; on an empty selection it returns `t`
unchanged, and on a selection of 1 to 4 points it returns `t` plus the
arithmetic mean of the selection's offsets. -/
theorem c4_predict_sparse_ladder (t window level : ℚ) (degree : ℕ)
    (history : List Record) :
    (∀ r : Record, r ∈ windowSelect t window history ↔
      r ∈ history ∧ t - window ≤ r.local_time ∧ r.local_time < t) ∧
    (windowSelect t window history = [] →
      predict_time t history window level degree = .ok t) ∧
    (1 ≤ (windowSelect t window history).length →
      (windowSelect t window history).length ≤ 4 →
      predict_time t history window level degree =
        .ok (t + npMean ((windowSelect t window history).map Record.offset))) := by
  refine ⟨?_, ?_, ?_⟩
  · intro r
    constructor
    · intro h
      obtain ⟨h1, h2⟩ := List.mem_filter.mp h
      simp only [Bool.and_eq_true, decide_eq_true_eq] at h2
      exact ⟨h1, h2.2, h2.1⟩
    · intro ⟨h1, h2, h3⟩
      refine List.mem_filter.mpr ⟨h1, ?_⟩
      simp only [Bool.and_eq_true, decide_eq_true_eq]
      exact ⟨h3, h2⟩
  · intro hE
    simp [predict_time, hE]
  · intro h1 h4
    have hlt : (windowSelect t window history).length < 5 := by omega
    have hne : ¬(windowSelect t window history).length = 0 := by omega
    simp only [predict_time, if_pos hlt, if_neg hne]

/-- Witness for `c4_predict_sparse_ladder`: empty history gives `t` back;
three in-window points at offsets `(0,0,1)` give `5 + 1/3 = 16/3`. -/
theorem c4_predict_sparse_ladder_witness :
    predict_time 5 ([] : List Record) 3000 (3 / 2) 3 = .ok 5 ∧
    predict_time 5 [sampleRow 0 0 1, sampleRow 1 0 1, sampleRow 2 1 1] 3000 (3 / 2) 3 =
      .ok (16 / 3) :=
  ⟨(c4_predict_sparse_ladder 5 3000 (3 / 2) 3 []).2.1 (by decide),
    ((c4_predict_sparse_ladder 5 3000 (3 / 2) 3
      [sampleRow 0 0 1, sampleRow 1 0 1, sampleRow 2 1 1]).2.2
        (by decide) (by decide)).trans (by decide)⟩

/-- **C5** (confirmed): whenever the in-window selection has at least 5
points and the surviving set after `remove_outliers` has fewer than 5,
`predict_time` returns `t` plus the mean offset of the *pre-trim*
selection.  The clause "including the case where the surviving set is
empty" is vacuous: by `remove_outliers_ne_nil` the surviving set of a
successful pass over ≥ 3 points is never empty, so the source's
`len(filtered_data) == 0 → return local_time` branch is unreachable here
and the mean-offset fallback is what always happens. -/
theorem c5_predict_trim_fallback (t window level : ℚ) (degree : ℕ)
    (history filtered : List Record) (hlev : 0 ≤ level)
    (hsel : 5 ≤ (windowSelect t window history).length)
    (hrm : remove_outliers (windowSelect t window history) Record.offset
      (some Record.local_time) (some Record.sig_offset) level degree = .ok filtered)
    (hlt : filtered.length < 5) :
    predict_time t history window level degree =
      .ok (t + npMean ((windowSelect t window history).map Record.offset)) := by
  have hpos : filtered ≠ [] :=
    remove_outliers_ne_nil hlev (by omega) hrm
  have hne : ¬filtered.length = 0 := fun h => hpos (List.eq_nil_of_length_eq_zero h)
  have h5 : ¬(windowSelect t window history).length < 5 := by omega
  simp only [predict_time, if_neg h5, hrm, if_pos hlt, if_neg hne]

/-- Witness for `c5_predict_trim_fallback`: on the 5-point history `c2Data`
queried at `t = 5` with `level = 1/2`, the trim leaves 4 points and predict
falls back to `5 + 1/5 = 26/5`. -/
theorem c5_predict_trim_fallback_witness :
    predict_time 5 c2Data 3000 (1 / 2) 3 = .ok (26 / 5) :=
  (c5_predict_trim_fallback 5 3000 (1 / 2) 3 c2Data
    [sampleRow 0 0 1, sampleRow 1 0 1, sampleRow 3 0 1, sampleRow 4 0 1]
    (by norm_num) (by decide) (by decide) (by decide)).trans (by decide)

theorem natLog10F_bracket :
    ∀ (fuel n : ℕ), 1 ≤ n → n ≤ fuel →
      10 ^ natLog10F fuel n ≤ n ∧ n < 10 ^ (natLog10F fuel n + 1)
  | 0, n, h1, h2 => by omega
  | fuel + 1, n, h1, h2 => by
    by_cases hn : n < 10
    · simp only [natLog10F, if_pos hn]
      constructor
      · simpa using h1
      · simpa using hn
    · have hge : 10 ≤ n := by omega
      have hdiv1 : 1 ≤ n / 10 := (Nat.one_le_div_iff (by norm_num)).mpr hge
      have hdivf : n / 10 ≤ fuel := by
        have := Nat.div_lt_self (by omega : 0 < n) (by norm_num : 1 < 10)
        omega
      obtain ⟨ih1, ih2⟩ := natLog10F_bracket fuel (n / 10) hdiv1 hdivf
      simp only [natLog10F, if_neg hn]
      constructor
      · calc 10 ^ (natLog10F fuel (n / 10) + 1)
            = 10 ^ natLog10F fuel (n / 10) * 10 := by ring
          _ ≤ (n / 10) * 10 := Nat.mul_le_mul_right 10 ih1
          _ ≤ n := Nat.div_mul_le_self n 10
      · have hmod := Nat.div_add_mod n 10
        calc n < (n / 10 + 1) * 10 := by omega
          _ ≤ 10 ^ (natLog10F fuel (n / 10) + 1) * 10 :=
              Nat.mul_le_mul_right 10 ih2
          _ = 10 ^ (natLog10F fuel (n / 10) + 1 + 1) := by ring

theorem natLog10_bracket (n : ℕ) (h : 1 ≤ n) :
    10 ^ natLog10 n ≤ n ∧ n < 10 ^ (natLog10 n + 1) :=
  natLog10F_bracket n n h le_rfl

theorem natLog10_unique (m k : ℕ) (h1 : 10 ^ k ≤ m) (h2 : m < 10 ^ (k + 1)) :
    natLog10 m = k := by
  have hm1 : 1 ≤ m := le_trans (Nat.one_le_pow _ _ (by norm_num)) h1
  obtain ⟨b1, b2⟩ := natLog10_bracket m hm1
  rcases Nat.lt_trichotomy (natLog10 m) k with hlt | heq | hgt
  · have hx : (10 : ℕ) ^ (natLog10 m + 1) ≤ 10 ^ k :=
      Nat.pow_le_pow_right (by norm_num) (by omega)
    omega
  · exact heq
  · have hx : (10 : ℕ) ^ (k + 1) ≤ 10 ^ natLog10 m :=
      Nat.pow_le_pow_right (by norm_num) (by omega)
    omega

/-- `ilog10` computes the integer part of the decimal logarithm. -/
theorem ilog10_correct (a : ℚ) (ha : 0 < a) :
    (10 : ℚ) ^ ilog10 a ≤ a ∧ a < (10 : ℚ) ^ (ilog10 a + 1) := by
  have hnum : 0 < a.num := Rat.num_pos.mpr ha
  have hp1n : 1 ≤ a.num.toNat := by omega
  have hq1n : 1 ≤ a.den := a.den_pos
  obtain ⟨hP1n, hP2n⟩ := natLog10_bracket a.num.toNat hp1n
  obtain ⟨hQ1n, hQ2n⟩ := natLog10_bracket a.den hq1n
  set dp := natLog10 a.num.toNat with hdp
  set dq := natLog10 a.den with hdq
  have hP1 : (10 : ℚ) ^ (dp : ℤ) ≤ (a.num.toNat : ℚ) := by
    rw [zpow_natCast]; exact_mod_cast hP1n
  have hP2 : (a.num.toNat : ℚ) < (10 : ℚ) ^ ((dp : ℤ) + 1) := by
    rw [show ((dp : ℤ) + 1) = ((dp + 1 : ℕ) : ℤ) by push_cast; ring, zpow_natCast]
    exact_mod_cast hP2n
  have hQ1 : (10 : ℚ) ^ (dq : ℤ) ≤ (a.den : ℚ) := by
    rw [zpow_natCast]; exact_mod_cast hQ1n
  have hQ2 : (a.den : ℚ) < (10 : ℚ) ^ ((dq : ℤ) + 1) := by
    rw [show ((dq : ℤ) + 1) = ((dq + 1 : ℕ) : ℤ) by push_cast; ring, zpow_natCast]
    exact_mod_cast hQ2n
  have hden0 : (0 : ℚ) < (a.den : ℚ) := by exact_mod_cast a.den_pos
  have haeq : a = (a.num.toNat : ℚ) / (a.den : ℚ) := by
    have htn : ((a.num.toNat : ℚ)) = (a.num : ℚ) := by
      exact_mod_cast Int.toNat_of_nonneg hnum.le
    rw [htn, Rat.num_div_den a]
  have hup : a < (10 : ℚ) ^ (((dp : ℤ) - dq) + 1) := by
    rw [haeq, div_lt_iff₀ hden0]
    calc (a.num.toNat : ℚ) < (10 : ℚ) ^ ((dp : ℤ) + 1) := hP2
      _ = (10 : ℚ) ^ (((dp : ℤ) - dq) + 1) * (10 : ℚ) ^ (dq : ℤ) := by
          rw [← zpow_add₀ (by norm_num : (10 : ℚ) ≠ 0)]
          congr 1
          ring
      _ ≤ (10 : ℚ) ^ (((dp : ℤ) - dq) + 1) * (a.den : ℚ) := by
          have h10 : (0 : ℚ) < (10 : ℚ) ^ (((dp : ℤ) - dq) + 1) := by positivity
          exact mul_le_mul_of_nonneg_left hQ1 h10.le
  have hlow : (10 : ℚ) ^ (((dp : ℤ) - dq) - 1) < a := by
    rw [haeq, lt_div_iff₀ hden0]
    calc (10 : ℚ) ^ (((dp : ℤ) - dq) - 1) * (a.den : ℚ)
        < (10 : ℚ) ^ (((dp : ℤ) - dq) - 1) * (10 : ℚ) ^ ((dq : ℤ) + 1) := by
          have h10 : (0 : ℚ) < (10 : ℚ) ^ (((dp : ℤ) - dq) - 1) := by positivity
          exact mul_lt_mul_of_pos_left hQ2 h10
      _ = (10 : ℚ) ^ (dp : ℤ) := by
          rw [← zpow_add₀ (by norm_num : (10 : ℚ) ≠ 0)]
          congr 1
          ring
      _ ≤ (a.num.toNat : ℚ) := hP1
  by_cases hcase : a < (10 : ℚ) ^ ((dp : ℤ) - dq)
  · have hdef : ilog10 a = ((dp : ℤ) - dq) - 1 := by
      simp only [ilog10, ← hdp, ← hdq, if_pos hcase]
    rw [hdef]
    constructor
    · exact hlow.le
    · rw [show (((dp : ℤ) - dq) - 1) + 1 = ((dp : ℤ) - dq) by ring]
      exact hcase
  · have hdef : ilog10 a = (dp : ℤ) - dq := by
      simp only [ilog10, ← hdp, ← hdq, if_neg hcase]
    rw [hdef]
    exact ⟨not_lt.mp hcase, hup⟩

/-- Round-half-even differs from its argument by at most `1/2`. -/
theorem roundHalfEven_bounds (q : ℚ) :
    q - 1 / 2 ≤ (roundHalfEven q : ℚ) ∧ (roundHalfEven q : ℚ) ≤ q + 1 / 2 := by
  have h1 := Int.floor_le q
  have h2 := Int.lt_floor_add_one q
  simp only [roundHalfEven]
  by_cases hr1 : q - ⌊q⌋ < 1 / 2
  · rw [if_pos hr1]
    constructor <;> linarith
  · rw [if_neg hr1]
    by_cases hr2 : 1 / 2 < q - ⌊q⌋
    · rw [if_pos hr2]
      constructor <;> push_cast <;> linarith
    · rw [if_neg hr2]
      have hr3 : q - ⌊q⌋ = 1 / 2 := le_antisymm (not_lt.mp hr2) (not_lt.mp hr1)
      by_cases hev : (⌊q⌋ % 2 = 0)
      · rw [if_pos hev]
        constructor <;> linarith
      · rw [if_neg hev]
        constructor <;> push_cast <;> linarith

/-- For a nonzero value the `.4e` mantissa always has exactly five digits:
it lies in `[10^4, 10^5)`. -/
theorem pyFormatEParts_mant_range (x : ℚ) (hx : x ≠ 0) :
    10 ^ 4 ≤ (pyFormatEParts 4 x).mant ∧ (pyFormatEParts 4 x).mant < 10 ^ 5 := by
  have ha : 0 < |x| := abs_pos.mpr hx
  obtain ⟨hl, hu⟩ := ilog10_correct |x| ha
  have h10e : (0 : ℚ) < (10 : ℚ) ^ ilog10 |x| := by positivity
  have hs1 : (10 : ℚ) ^ (4 : ℕ) ≤ |x| / (10 : ℚ) ^ ilog10 |x| * (10 : ℚ) ^ (4 : ℕ) := by
    have hd1 : (1 : ℚ) ≤ |x| / (10 : ℚ) ^ ilog10 |x| := (one_le_div h10e).mpr hl
    nlinarith
  have hs2 : |x| / (10 : ℚ) ^ ilog10 |x| * (10 : ℚ) ^ (4 : ℕ) < (10 : ℚ) ^ (5 : ℕ) := by
    have hd2 : |x| / (10 : ℚ) ^ ilog10 |x| < 10 := by
      rw [div_lt_iff₀ h10e]
      calc |x| < (10 : ℚ) ^ (ilog10 |x| + 1) := hu
        _ = 10 * (10 : ℚ) ^ ilog10 |x| := by
            rw [zpow_add₀ (by norm_num : (10 : ℚ) ≠ 0)]
            ring
    nlinarith
  obtain ⟨hb1, hb2⟩ := roundHalfEven_bounds (|x| / (10 : ℚ) ^ ilog10 |x| * (10 : ℚ) ^ (4 : ℕ))
  have hm1 : (10 : ℤ) ^ 4 ≤ roundHalfEven (|x| / (10 : ℚ) ^ ilog10 |x| * (10 : ℚ) ^ (4 : ℕ)) := by
    have hq : (((10 : ℤ) ^ 4 - 1 : ℤ) : ℚ) <
        ((roundHalfEven (|x| / (10 : ℚ) ^ ilog10 |x| * (10 : ℚ) ^ (4 : ℕ)) : ℤ) : ℚ) := by
      push_cast
      nlinarith
    have hz := Int.cast_lt.mp hq
    omega
  have hm2 : roundHalfEven (|x| / (10 : ℚ) ^ ilog10 |x| * (10 : ℚ) ^ (4 : ℕ)) ≤ (10 : ℤ) ^ 5 := by
    have hq : ((roundHalfEven (|x| / (10 : ℚ) ^ ilog10 |x| * (10 : ℚ) ^ (4 : ℕ)) : ℤ) : ℚ) <
        (((10 : ℤ) ^ 5 + 1 : ℤ) : ℚ) := by
      push_cast
      nlinarith
    have hz := Int.cast_lt.mp hq
    omega
  by_cases hcar : roundHalfEven (|x| / (10 : ℚ) ^ ilog10 |x| * (10 : ℚ) ^ (4 : ℕ)) =
      (10 : ℤ) ^ (4 + 1)
  · have hdef : (pyFormatEParts 4 x).mant = 10 ^ 4 := by
      simp only [pyFormatEParts, if_neg hx, if_pos hcar]
    rw [hdef]
    norm_num
  · have hdef : (pyFormatEParts 4 x).mant =
        (roundHalfEven (|x| / (10 : ℚ) ^ ilog10 |x| * (10 : ℚ) ^ (4 : ℕ))).toNat := by
      simp only [pyFormatEParts, if_neg hx, if_neg hcar]
    rw [hdef]
    constructor
    · omega
    · have : roundHalfEven (|x| / (10 : ℚ) ^ ilog10 |x| * (10 : ℚ) ^ (4 : ℕ)) ≠ (10 : ℤ) ^ 5 := by
        exact_mod_cast hcar
      omega

set_option maxRecDepth 4000 in
/-- **C9** (counterexample): the offset-family fields are *not* written with
4 significant digits: Python's `.4e` keeps 4 digits after the decimal
point, i.e. five significant digits.  Formatting the record with
`offset = 0.123456` yields the field `"1.2346e-01"`, whose mantissa has 5
significant digits. -/
theorem c9_four_sig_digits_cex :
    historyLineOffsetFields
        { local_time := 0, pred_time := 0, serv_time := 0,
          offset := 123456 / 1000000, sig_offset := 1 / 2,
          pred_offset := -3 / 1000, sig_pred_offset := 2 } =
      ["1.2346e-01", "5.0000e-01", "-3.0000e-03", "2.0000e+00"] ∧
    sigDigitCount 4 (123456 / 1000000) = 5 ∧ (5 : ℕ) ≠ 4 :=
  ⟨by decide, by decide, by decide⟩

/-- **C9** (amended): every nonzero value is written by the `.4e` format
with exactly 4 digits after the decimal point, hence exactly 5 significant
digits in the mantissa (and the same holds for each of the four
offset-family fields of a history line).  The time fields are written by
`str(float)`, Python's full-precision shortest round-trip rendering of the
binary double, which is outside the rational model. -/
theorem c9_format_five_sig_digits (x : ℚ) (hx : x ≠ 0) : sigDigitCount 4 x = 5 := by
  obtain ⟨h1, h2⟩ := pyFormatEParts_mant_range x hx
  show natLog10 (pyFormatEParts 4 x).mant + 1 = 5
  rw [natLog10_unique (pyFormatEParts 4 x).mant 4 h1 h2]

set_option maxRecDepth 4000 in
/-- Witness for `c9_format_five_sig_digits`. -/
theorem c9_format_five_sig_digits_witness : sigDigitCount 4 (-7 / 3) = 5 :=
  c9_format_five_sig_digits (-7 / 3) (by norm_num)

end TimeKeeping
